import Mathlib

/-!
Verification development for the `textacy` module `texts.py`, which defines the
`TextDoc` and `TextCorpus` wrappers around a spaCy pipeline.  The Python source
is shallowly embedded: pure computations become Lean functions, object mutation
becomes explicit state passing over a heap of document records, and Python
exceptions become `Except` results.  External collaborators (spaCy extraction,
language detection, the string interner) are modelled as opaque data carried by
the document / environment records, exactly as the source consumes them.
-/

namespace TextacySpec

/-!
### Model of Python `collections.Counter`

`TextDoc._term_counts` is a `collections.Counter` (a dict from term id to
count).  We model it as an insertion-ordered association list `List (Nat × Nat)`.
`clookup` is `Counter.__getitem__` (missing keys give `0` and are not
inserted), `hasKey` is `in`, `cunion` is `Counter.__or__` (per-key maximum,
non-positive results dropped), `cadd` is `Counter.__add__` (per-key sum,
non-positive results dropped), and `counterOf` is the `Counter(iterable)`
constructor.  Counter/dict equality in Python compares the key-to-value maps,
which for counters whose values are positive (`CPos`) is exactly pointwise
`clookup` equality together with pointwise `hasKey` agreement.
-/

abbrev Counter := List (Nat × Nat)

def clookup : Counter → Nat → Nat
  | [], _ => 0
  | p :: rest, k => if p.1 = k then p.2 else clookup rest k

def hasKey : Counter → Nat → Bool
  | [], _ => false
  | p :: rest, k => p.1 == k || hasKey rest k

/-- `Counter.__or__`: per-key maximum; keys of `s` first (in order), then keys
of `o` not in `s`; non-positive values are dropped. -/
def cunion (s o : Counter) : Counter :=
  (s.map (fun p => (p.1, max p.2 (clookup o p.1)))).filter (fun p => decide (0 < p.2))
    ++ o.filter (fun p => !hasKey s p.1 && decide (0 < p.2))

/-- `Counter.__add__`: per-key sum; keys of `s` first, then keys of `o` not in
`s`; non-positive values are dropped. -/
def cadd (s o : Counter) : Counter :=
  (s.map (fun p => (p.1, p.2 + clookup o p.1))).filter (fun p => decide (0 < p.2))
    ++ o.filter (fun p => !hasKey s p.1 && decide (0 < p.2))

/-- One step of the `Counter(iterable)` constructor: add one occurrence of `k`. -/
def incr (c : Counter) (k : Nat) : Counter :=
  if hasKey c k then c.map (fun p => if p.1 == k then (p.1, p.2 + 1) else p)
  else c ++ [(k, 1)]

/-- `Counter(iterable)`: count occurrences, keys in first-occurrence order. -/
def counterOf (l : List Nat) : Counter := l.foldl incr []

/-- All stored counts are positive — an invariant of every counter the Python
code ever stores in `_term_counts` (counters built by `Counter(iterable)`,
`|`, and `+` only hold positive values). -/
abbrev CPos (c : Counter) : Prop := ∀ p ∈ c, 0 < p.2

lemma clookup_cons_eq {p : Nat × Nat} {c : Counter} {k : Nat} (h : p.1 = k) :
    clookup (p :: c) k = p.2 := by
  simp [clookup, h]

lemma clookup_cons_ne {p : Nat × Nat} {c : Counter} {k : Nat} (h : p.1 ≠ k) :
    clookup (p :: c) k = clookup c k := by
  simp [clookup, h]

lemma hasKey_cons {p : Nat × Nat} {c : Counter} {k : Nat} :
    hasKey (p :: c) k = (p.1 == k || hasKey c k) := rfl

lemma clookup_filter_congr {c : Counter} {f g : Nat × Nat → Bool} {k : Nat}
    (h : ∀ p ∈ c, p.1 = k → f p = g p) :
    clookup (c.filter f) k = clookup (c.filter g) k := by
  induction c with
  | nil => rfl
  | cons p rest ih =>
    have hrest : ∀ q ∈ rest, q.1 = k → f q = g q :=
      fun q hq => h q (List.mem_cons_of_mem p hq)
    by_cases hk : p.1 = k
    · have hfg := h p (List.mem_cons_self p rest) hk
      simp only [List.filter_cons, hfg]
      cases hg : g p
      · exact ih hrest
      · simp [clookup_cons_eq hk]
    · have hfil : ∀ f' : Nat × Nat → Bool,
          clookup ((p :: rest).filter f') k = clookup (rest.filter f') k := by
        intro f'
        by_cases hf : f' p = true
        · rw [List.filter_cons_of_pos hf, clookup_cons_ne hk]
        · rw [List.filter_cons_of_neg hf]
      rw [hfil f, hfil g]
      exact ih hrest

lemma clookup_append_congr {b b' : Counter} (a : Counter) (k : Nat)
    (h : clookup b k = clookup b' k) :
    clookup (a ++ b) k = clookup (a ++ b') k := by
  induction a with
  | nil => exact h
  | cons p rest ih =>
    by_cases hk : p.1 = k
    · simp [List.cons_append, clookup_cons_eq hk]
    · simpa [List.cons_append, clookup_cons_ne hk] using ih

lemma clookup_append (a b : Counter) (k : Nat) :
    clookup (a ++ b) k = if hasKey a k then clookup a k else clookup b k := by
  induction a with
  | nil => simp [hasKey, clookup]
  | cons p rest ih =>
    by_cases hk : p.1 = k
    · simp [clookup, hasKey, hk]
    · have hb : (p.1 == k) = false := by simp [hk]
      simp only [List.cons_append, clookup_cons_ne hk, ih, hasKey_cons, hb,
        Bool.false_or]

lemma cunion_pos {s o : Counter} : CPos (cunion s o) := by
  intro p hp
  simp only [cunion, List.mem_append, List.mem_filter] at hp
  rcases hp with ⟨_, h⟩ | ⟨_, h⟩
  · exact of_decide_eq_true h
  · simp only [Bool.and_eq_true, decide_eq_true_eq] at h
    exact h.2

lemma clookup_cunion (s o : Counter) (ho : CPos o) (k : Nat) (hs : CPos s) :
    clookup (cunion s o) k = max (clookup s k) (clookup o k) := by
  induction s with
  | nil =>
    have hfo : o.filter (fun p => !hasKey [] p.1 && decide (0 < p.2)) = o := by
      apply List.filter_eq_self.mpr
      intro p hp
      simp [hasKey, ho p hp]
    simp [cunion, hfo, clookup]
  | cons p rest ih =>
    have hppos : 0 < p.2 := hs p (List.mem_cons_self p rest)
    have hrest : CPos rest := fun q hq => hs q (List.mem_cons_of_mem p hq)
    have hheadpos : decide (0 < max p.2 (clookup o p.1)) = true := by
      simp
      omega
    by_cases hk : p.1 = k
    · simp only [cunion, List.map_cons, List.filter_cons, hheadpos, if_true,
        List.cons_append]
      rw [clookup_cons_eq (by simpa using hk), clookup_cons_eq hk, hk]
    · have hcongr :
          clookup (o.filter (fun q => !hasKey (p :: rest) q.1 && decide (0 < q.2))) k
            = clookup (o.filter (fun q => !hasKey rest q.1 && decide (0 < q.2))) k := by
        apply clookup_filter_congr
        intro q _ hq
        have : (p.1 == q.1) = false := by
          simp only [beq_eq_false_iff_ne, ne_eq]
          rw [hq]; exact hk
        simp [hasKey_cons, this]
      simp only [cunion, List.map_cons, List.filter_cons, hheadpos, if_true,
        List.cons_append]
      rw [clookup_cons_ne (by simpa using hk), clookup_cons_ne hk]
      rw [clookup_append_congr _ k hcongr]
      have h2 := ih hrest
      simp only [cunion] at h2
      exact h2

lemma hasKey_pos {c : Counter} (hc : CPos c) (k : Nat) :
    hasKey c k = true ↔ 0 < clookup c k := by
  induction c with
  | nil => simp [hasKey, clookup]
  | cons p rest ih =>
    have hrest : CPos rest := fun q hq => hc q (List.mem_cons_of_mem p hq)
    by_cases hk : p.1 = k
    · simp [hasKey_cons, clookup_cons_eq hk, hk, hc p (List.mem_cons_self p rest)]
    · have hb : (p.1 == k) = false := by simp [hk]
      simp [hasKey_cons, hb, clookup_cons_ne hk, ih hrest]

lemma incr_pos {c : Counter} (hc : CPos c) (k : Nat) : CPos (incr c k) := by
  intro p hp
  unfold incr at hp
  by_cases h : hasKey c k = true
  · rw [if_pos h] at hp
    obtain ⟨q, hq, hqe⟩ := List.mem_map.mp hp
    rcases hqe with rfl
    by_cases hqk : (q.1 == k) = true
    · rw [if_pos hqk]
      exact Nat.succ_pos q.2
    · rw [if_neg hqk]
      exact hc q hq
  · rw [if_neg h] at hp
    rcases List.mem_append.mp hp with hp1 | hp1
    · exact hc p hp1
    · rcases List.mem_singleton.mp hp1 with rfl
      exact Nat.one_pos

lemma counterOf_pos (l : List Nat) : CPos (counterOf l) := by
  have h : ∀ (c : Counter), CPos c → CPos (l.foldl incr c) := by
    induction l with
    | nil => intro c hc; exact hc
    | cons a rest ih =>
      intro c hc
      exact ih (incr c a) (incr_pos hc a)
  exact h [] (by intro p hp; cases hp)

/-- Pointwise maximum of the looked-up counts over a list of counters. -/
def maxOf (cs : List Counter) (k : Nat) : Nat :=
  match cs with
  | [] => 0
  | c :: rest => max (clookup c k) (maxOf rest k)

lemma foldl_cunion_pos (cs : List Counter) :
    ∀ tc : Counter, CPos tc → CPos (cs.foldl cunion tc) := by
  induction cs with
  | nil => intro tc htc; exact htc
  | cons c rest ih =>
    intro tc _
    exact ih (cunion tc c) cunion_pos

lemma clookup_foldl_cunion (cs : List Counter) (hcs : ∀ c ∈ cs, CPos c) :
    ∀ tc : Counter, CPos tc → ∀ k,
      clookup (cs.foldl cunion tc) k = max (clookup tc k) (maxOf cs k) := by
  induction cs with
  | nil =>
    intro tc _ k
    simp [maxOf]
  | cons c rest ih =>
    intro tc htc k
    have hc : CPos c := hcs c (List.mem_cons_self c rest)
    have hrest : ∀ c' ∈ rest, CPos c' := fun c' hc' => hcs c' (List.mem_cons_of_mem c hc')
    simp only [List.foldl_cons, maxOf]
    rw [ih hrest (cunion tc c) cunion_pos k, clookup_cunion tc c hc k htc]
    omega

/-!
### Model of spaCy tokens, spans and a parsed `TextDoc`

spaCy is an opaque collaborator.  A `Token` carries its token index `i`, its
*character* offset `idx`, its surface `text` and its `lemma_`; we also record
the result of the external helper `spacy_utils.normalized_str` as `norm`.
A `Span` (entity / n-gram / noun chunk) carries its token-index bounds
`start`/`stop` (spaCy's `start`/`end`) and the same string attributes.

A `DocModel` packages everything `TextDoc`'s methods consume: the raw text
(`text_with_ws`), the token count, and the results of the extraction helpers
`extract.words`, `extract.ngrams n`, `extract.named_entities`,
`extract.noun_chunks` and `keyterms.sgrank` (key terms come back as plain
strings) for the keyword arguments fixed by the call under study, plus the
string interner `spacy_stringstore` in both directions (string to id and,
for ids already interned, id back to string).
-/

structure SToken where
  i : Nat
  idx : Nat
  text : String
  lemma_ : String
  norm : String
deriving DecidableEq

structure SSpan where
  start : Nat
  stop : Nat
  text : String
  lemma_ : String
  norm : String
deriving DecidableEq

structure DocModel where
  text : String
  nTokens : Nat
  wordsE : List SToken
  ngramsE : Nat → List SSpan
  entsE : List SSpan
  ncsE : List SSpan
  ktsE : List String
  stringstore : String → Nat
  storeInv : Nat → String

/-- The `lemmatize` argument of `term_counts`: `'auto'`, `True`, or anything
else (falsy). -/
inductive Lemmatize where
  | auto
  | yes
  | no
deriving DecidableEq

/-- `get_id` on a token, per the `lemmatize` mode chosen in `term_counts`. -/
def getIdTok (d : DocModel) (lm : Lemmatize) (t : SToken) : Nat :=
  match lm with
  | .auto => d.stringstore t.norm
  | .yes => d.stringstore t.lemma_
  | .no => d.stringstore t.text

/-- `get_id` on a span, per the `lemmatize` mode chosen in `term_counts`. -/
def getIdSpan (d : DocModel) (lm : Lemmatize) (s : SSpan) : Nat :=
  match lm with
  | .auto => d.stringstore s.norm
  | .yes => d.stringstore s.lemma_
  | .no => d.stringstore s.text

/-- Argument tuple of `TextDoc.term_counts`. -/
structure TCArgs where
  lemmatize : Lemmatize
  ngramRange : Nat × Nat
  includeNes : Bool
  includeNcs : Bool
  includeKts : Bool

/-- Python `range(a, b + 1)`. -/
def rangeIncl (a b : Nat) : List Nat := List.range' a (b + 1 - a)

/-- The id streams that `term_counts` turns into counters and unions into
`_term_counts`, in program order: one per `n` in
`range(ngram_range[0], ngram_range[1] + 1)` (with `n = 1` drawing from
`words()` and other `n` from `ngrams(n)`), then named entities, noun chunks,
and key terms (whose `get_id` is overridden to intern the raw string). -/
def termIdLists (d : DocModel) (a : TCArgs) : List (List Nat) :=
  ((rangeIncl a.ngramRange.1 a.ngramRange.2).map (fun n =>
    if n = 1 then d.wordsE.map (getIdTok d a.lemmatize)
    else (d.ngramsE n).map (getIdSpan d a.lemmatize)))
  ++ (if a.includeNes then [d.entsE.map (getIdSpan d a.lemmatize)] else [])
  ++ (if a.includeNcs then [d.ncsE.map (getIdSpan d a.lemmatize)] else [])
  ++ (if a.includeKts then [d.ktsE.map d.stringstore] else [])

/-- `TextDoc.term_counts`: starting from the memoized `_term_counts` value
`tc`, fold `self._term_counts = self._term_counts | Counter(ids)` over each
extraction stream.  The function's return value and the new `_term_counts`
are both this result. -/
def term_counts (d : DocModel) (a : TCArgs) (tc : Counter) : Counter :=
  ((termIdLists d a).map counterOf).foldl cunion tc

lemma termIdCounters_pos (d : DocModel) (a : TCArgs) :
    ∀ c ∈ (termIdLists d a).map counterOf, CPos c := by
  intro c hc
  obtain ⟨l, _, rfl⟩ := List.mem_map.mp hc
  exact counterOf_pos l

lemma term_counts_pos (d : DocModel) (a : TCArgs) (tc : Counter) (h : CPos tc) :
    CPos (term_counts d a tc) :=
  foldl_cunion_pos _ tc h

/-- Claim C3: for a fixed argument tuple, calling `term_counts` twice in
succession returns the same Counter both times and the second call leaves the
memoized `_term_counts` unchanged: the `|` merge takes the per-key maximum,
so re-merging the same extraction counters never doubles any term's count.
Counter (dict) equality is pointwise: equal looked-up counts and equal key
membership.  The hypothesis `CPos tc` is the invariant that every memoized
count is positive (true of every counter the code ever stores). -/
theorem term_counts_idempotent (d : DocModel) (a : TCArgs) (tc : Counter) (k : Nat)
    (h : CPos tc) :
    clookup (term_counts d a (term_counts d a tc)) k = clookup (term_counts d a tc) k ∧
    hasKey (term_counts d a (term_counts d a tc)) k = hasKey (term_counts d a tc) k := by
  have h1 : CPos (term_counts d a tc) := term_counts_pos d a tc h
  have h2 : CPos (term_counts d a (term_counts d a tc)) := term_counts_pos d a _ h1
  have e1 := clookup_foldl_cunion ((termIdLists d a).map counterOf)
    (termIdCounters_pos d a) tc h k
  have e2 := clookup_foldl_cunion ((termIdLists d a).map counterOf)
    (termIdCounters_pos d a) (term_counts d a tc) h1 k
  have heq : clookup (term_counts d a (term_counts d a tc)) k
      = clookup (term_counts d a tc) k := by
    unfold term_counts at e1 e2 ⊢
    rw [e2, e1]
    omega
  refine ⟨heq, ?_⟩
  rw [Bool.eq_iff_iff, hasKey_pos h2 k, hasKey_pos h1 k, heq]

def c3wdoc : DocModel :=
  { text := "a b a", nTokens := 3,
    wordsE := [⟨0, 0, "a", "a", "a"⟩, ⟨1, 2, "b", "b", "b"⟩, ⟨2, 4, "a", "a", "a"⟩],
    ngramsE := fun _ => [], entsE := [], ncsE := [], ktsE := [],
    stringstore := fun s => if s = "a" then 1 else 2,
    storeInv := fun _ => "" }

def c3wargs : TCArgs := ⟨.auto, (1, 1), false, false, false⟩

theorem term_counts_idempotent_witness :
    CPos ([] : Counter) ∧
    (clookup (term_counts c3wdoc c3wargs (term_counts c3wdoc c3wargs [])) 1 =
        clookup (term_counts c3wdoc c3wargs []) 1 ∧
      hasKey (term_counts c3wdoc c3wargs (term_counts c3wdoc c3wargs [])) 1 =
        hasKey (term_counts c3wdoc c3wargs []) 1) :=
  ⟨by decide, term_counts_idempotent c3wdoc c3wargs [] 1 (by decide)⟩

/-!
### Python exceptions and `Except` helpers
-/

inductive PyErr where
  | valueError
  | typeError
  | attributeError
deriving DecidableEq

def isErrE {ε α : Type} : Except ε α → Bool
  | .error _ => true
  | .ok _ => false

def isOkE {ε α : Type} : Except ε α → Bool
  | .error _ => false
  | .ok _ => true

/-!
### `TextDoc.as_terms_list`
-/

/-- A term yielded by `as_terms_list`: a word token or an n-gram/entity span. -/
inductive Term where
  | tok : SToken → Term
  | spn : SSpan → Term
deriving DecidableEq

def Term.lemmaOf : Term → String
  | .tok t => t.lemma_
  | .spn s => s.lemma_

def Term.textOf : Term → String
  | .tok t => t.text
  | .spn s => s.text

/-- `TextDoc.as_terms_list`.  In the dedupe branch the code computes
`ent_idxs = {(ent.start, ent.end) for ent in ents}` — a set of *token-index*
pairs — and then filters words by `(word.idx, word.idx + 1) not in ent_idxs`,
where `word.idx` is the token's *character offset*, and n-grams by
`(ngram.start, ngram.end) not in ent_idxs`.  `ngrams` is `False`-y (`none`)
or an inclusive `(min n, max n)` range; `n = 1` is skipped when `words` is
also requested.  Terms are yielded as `lemma_` or `text`. -/
def as_terms_list (d : DocModel) (words : Bool) (ngrams : Option (Nat × Nat))
    (named_entities dedupe lemmatize : Bool) : List String :=
  let all_terms : List (List Term) :=
    if dedupe && named_entities && (words || ngrams.isSome) then
      let ents := d.entsE
      let entIdxs := ents.map (fun e => (e.start, e.stop))
      [ents.map Term.spn]
        ++ (if words then
              [(d.wordsE.filter
                  (fun w => !(entIdxs.contains (w.idx, w.idx + 1)))).map Term.tok]
            else [])
        ++ (match ngrams with
            | none => []
            | some r =>
              (rangeIncl r.1 r.2).filterMap (fun n =>
                if n == 1 && words then none
                else some (((d.ngramsE n).filter
                  (fun g => !(entIdxs.contains (g.start, g.stop)))).map Term.spn)))
    else
      (if named_entities then [d.entsE.map Term.spn] else [])
        ++ (if words then [d.wordsE.map Term.tok] else [])
        ++ (match ngrams with
            | none => []
            | some r =>
              (rangeIncl r.1 r.2).filterMap (fun n =>
                if n == 1 && words then none
                else some ((d.ngramsE n).map Term.spn)))
  all_terms.flatten.map (fun t => if lemmatize then t.lemmaOf else t.textOf)

/-- A two-token document "In Paris": the word token "Paris" has token index
`i = 1` but character offset `idx = 3`, and the entity "Paris" is the token
span `(1, 2)`. -/
def c2tok1 : SToken := ⟨1, 3, "Paris", "Paris", "paris"⟩

def c2ent : SSpan := ⟨1, 2, "Paris", "Paris", "paris"⟩

def c2doc : DocModel :=
  { text := "In Paris", nTokens := 2,
    wordsE := [c2tok1],
    ngramsE := fun _ => [], entsE := [c2ent], ncsE := [], ktsE := [],
    stringstore := fun _ => 0, storeInv := fun _ => "" }

/-- Claim C2 (code bug evidence): with `dedupe=True`, `named_entities=True`
and `words=True`, `as_terms_list` yields the word "Paris" even though its
token span `(i, i + 1) = (1, 2)` coincides exactly with the span of the
entity "Paris" already emitted in the same call: the filter compares the
word's *character offset* pair `(idx, idx + 1) = (3, 4)` against the set of
entity *token* spans `{(1, 2)}`, so the overlapping word is never suppressed,
contradicting the claim and the function's own docstring ("any words or
ngrams that exactly overlap with previously added entities are skipped"). -/
theorem as_terms_list_dedupe_misses_word :
    as_terms_list c2doc true none true true false = ["Paris", "Paris"] ∧
    (c2tok1.i, c2tok1.i + 1) = (c2ent.start, c2ent.stop) ∧
    c2tok1 ∈ c2doc.wordsE ∧ c2ent ∈ c2doc.entsE := by
  decide

/-!
### `TextDoc.term_count`
-/

/-- Python `str.count(' ')`. -/
def countSpaces (s : String) : Nat := (s.toList.filter (fun c => c == ' ')).length

/-- Left-to-right scan for non-overlapping matches of a non-empty literal
pattern; `skip` counts characters still covered by the previous match. -/
def countOccAux (pat : List Char) : List Char → Nat → Nat
  | [], _ => 0
  | c :: rest, skip =>
    match skip with
    | Nat.succ k => countOccAux pat rest k
    | 0 =>
      if pat.isPrefixOf (c :: rest) then 1 + countOccAux pat rest (pat.length - 1)
      else countOccAux pat rest 0

/-- `sum(1 for _ in re.finditer(re.escape(pat), text))`: the number of
non-overlapping, left-to-right literal matches of `pat` in `text`; an empty
pattern matches at every position (`len(text) + 1` matches). -/
def countOcc (pat : List Char) (text : List Char) : Nat :=
  if pat.isEmpty then text.length + 1 else countOccAux pat text 0

/-- `TextDoc.term_count` on a string argument (`term_id` is the interned
string, `term_len = term.count(' ') + 1`).  If the memoized count is zero the
code re-extracts the `term_len`-gram counter and `+=`s it into `_term_counts`
only when `not any(stringstore[t].count(' ') == term_len for t in
self._term_counts)` — note this compares a stored term's *space count*
against `term_len`, which is the query's space count *plus one*.  If the term
is still unmatched (or the guard failed) it falls back to a literal regex
scan of the raw text. -/
def term_count (d : DocModel) (tc : Counter) (term : String) : Nat × Counter :=
  let termId := d.stringstore term
  let termLen := countSpaces term + 1
  let c0 := clookup tc termId
  if 0 < c0 then (c0, tc)
  else if !(tc.any (fun p => countSpaces (d.storeInv p.1) == termLen)) then
    let added :=
      if termLen == 1 then counterOf (d.wordsE.map (fun w => d.stringstore w.norm))
      else counterOf ((d.ngramsE termLen).map (fun g => d.stringstore g.norm))
    let tc1 := cadd tc added
    let c1 := clookup tc1 termId
    if 0 < c1 then (c1, tc1)
    else (countOcc term.toList d.text.toList, tc1)
  else (countOcc term.toList d.text.toList, tc)

/-- Modelled from the claim's words (claim C6): "if the term's id is absent
from the memoized counts, it lazily extends `_term_counts` with the n-gram
order matching the term's length and, if the term is still unmatched, returns
the number of non-overlapping literal regex matches of the term's text in the
raw document text".  Unlike the source, the extension is unconditional once
the id is absent. -/
def term_count_claimed (d : DocModel) (tc : Counter) (term : String) : Nat × Counter :=
  let termId := d.stringstore term
  let termLen := countSpaces term + 1
  let c0 := clookup tc termId
  if 0 < c0 then (c0, tc)
  else
    let added :=
      if termLen == 1 then counterOf (d.wordsE.map (fun w => d.stringstore w.norm))
      else counterOf ((d.ngramsE termLen).map (fun g => d.stringstore g.norm))
    let tc1 := cadd tc added
    let c1 := clookup tc1 termId
    if 0 < c1 then (c1, tc1)
    else (countOcc term.toList d.text.toList, tc1)

/-- Document for the C6 counterexample: one word token "bar" (interned as
11), raw text "rebar bar" (which contains the substring "bar" twice), and a
memoized counter already holding the bigram "a b" (interned as 10). -/
def c6doc : DocModel :=
  { text := "rebar bar", nTokens := 2,
    wordsE := [⟨1, 6, "bar", "bar", "bar"⟩],
    ngramsE := fun _ => [], entsE := [], ncsE := [], ktsE := [],
    stringstore := fun s => if s = "a b" then 10 else if s = "bar" then 11 else 0,
    storeInv := fun k => if k = 10 then "a b" else if k = 11 then "bar" else "" }

def c6tc : Counter := [(10, 1)]

/-- Claim C6 counterexample: the id of "bar" is absent from the memoized
counts, yet `term_count` does NOT extend `_term_counts` with unigrams — the
guard sees the stored bigram "a b" whose space count (1) equals `term_len`
(1) — and instead returns the literal scan count 2 ("bar" occurs twice as a
substring of "rebar bar"), while the behaviour stated by the claim extends
the counter with the unigram "bar" and returns its word count 1. -/
theorem term_count_skips_extension_counterexample :
    term_count c6doc c6tc "bar" = (2, [(10, 1)]) ∧
    term_count_claimed c6doc c6tc "bar" = (1, [(10, 1), (11, 1)]) ∧
    clookup c6tc (c6doc.stringstore "bar") = 0 := by
  decide

/-- Claim C6 (amended): `term_count` on a string term never raises (the
embedding is total); when the term's id is absent from the memoized counts
AND no already-memoized term's text contains exactly `term_len` spaces (the
source's off-by-one guard: it looks for stored terms one word *longer* than
the query), it behaves exactly as the claim describes — extend with the
matching n-gram order, then fall back to the literal scan (possibly 0) if
still unmatched.  Otherwise it skips the extension and goes straight to the
literal scan. -/
theorem term_count_lazy_extension (d : DocModel) (tc : Counter) (term : String)
    (h0 : clookup tc (d.stringstore term) = 0)
    (h1 : ∀ p ∈ tc, countSpaces (d.storeInv p.1) ≠ countSpaces term + 1) :
    term_count d tc term = term_count_claimed d tc term := by
  unfold term_count term_count_claimed
  have hany : tc.any (fun p => countSpaces (d.storeInv p.1) == countSpaces term + 1)
      = false := by
    rw [List.any_eq_false]
    intro p hp
    simpa using h1 p hp
  simp [h0, hany]

theorem term_count_lazy_extension_witness :
    clookup ([] : Counter) (c6doc.stringstore "bar") = 0 ∧
    term_count c6doc [] "bar" = term_count_claimed c6doc [] "bar" :=
  ⟨by decide, term_count_lazy_extension c6doc [] "bar" (by decide) (by decide)⟩

/-!
### `TextDoc.as_bag_of_terms`
-/

def qlookup : List (Nat × ℚ) → Nat → ℚ
  | [], _ => 0
  | p :: rest, k => if p.1 = k then p.2 else qlookup rest k

/-- `TextDoc.as_bag_of_terms`: start from `term_counts(...)`; if `binary` set
every weight to 1; elif `normalized` divide each count by `n_tokens`;
afterwards, if `weighting == 'tfidf'` and `idf` is truthy (a non-empty
mapping), scale each weight by `idf[key]`.  Returns the weights and the new
memoized `_term_counts`. -/
def as_bag_of_terms (d : DocModel) (weighting : String) (normalized binary : Bool)
    (idf : Option (List (Nat × ℚ))) (a : TCArgs) (tc : Counter) :
    List (Nat × ℚ) × Counter :=
  let tw := term_counts d a tc
  let w1 : List (Nat × ℚ) :=
    if binary then tw.map (fun p => (p.1, (1 : ℚ)))
    else if normalized then tw.map (fun p => (p.1, (p.2 : ℚ) / (d.nTokens : ℚ)))
    else tw.map (fun p => (p.1, (p.2 : ℚ)))
  let w2 : List (Nat × ℚ) :=
    match idf with
    | some m =>
      if weighting = "tfidf" ∧ m.isEmpty = false then
        w1.map (fun p => (p.1, p.2 * qlookup m p.1))
      else w1
    | none => w1
  (w2, tw)

/-- Claim C10: with `binary=True` and `idf=None`, every weight returned by
`as_bag_of_terms` equals 1, whatever `normalized` and `weighting` are: the
binary branch takes precedence over normalization, and the idf scaling step
is skipped because `None` is falsy. -/
theorem as_bag_of_terms_binary_ones (d : DocModel) (weighting : String)
    (normalized : Bool) (a : TCArgs) (tc : Counter) :
    ((as_bag_of_terms d weighting normalized true none a tc).1).all
      (fun p => decide (p.2 = (1 : ℚ))) = true := by
  have h : ∀ p ∈ (term_counts d a tc).map (fun p => (p.1, (1 : ℚ))),
      decide (p.2 = (1 : ℚ)) = true := by
    intro p hp
    obtain ⟨q, _, rfl⟩ := List.mem_map.mp hp
    simp
  exact List.all_eq_true.mpr h

/-!
### `TextDoc.key_terms` and `TextDoc.as_semantic_network`

The ranking / graph helpers are external; the embedding records which helper
is called and with which arguments.
-/

inductive KeyTermsCall where
  | sgrank (windowWidth : Nat) (nKeyterms : Int)
  | textrank (nKeyterms : Int)
  | singlerank (nKeyterms : Int)
deriving DecidableEq

def key_terms (algorithm : String) (n : Int) : Except PyErr KeyTermsCall :=
  if algorithm = "sgrank" then .ok (.sgrank 1500 n)
  else if algorithm = "textrank" then .ok (.textrank n)
  else if algorithm = "singlerank" then .ok (.singlerank n)
  else .error .valueError

inductive NetworkCall where
  | termsNet (edgeWeighting : String) (windowWidth : Nat)
  | sentsNet (edgeWeighting : String)
deriving DecidableEq

def as_semantic_network (nodes edge_weighting : String) (window_width : Nat) :
    Except PyErr NetworkCall :=
  if nodes = "terms" then
    .ok (.termsNet (if edge_weighting = "default" then "cooc_freq" else edge_weighting)
      window_width)
  else if nodes = "sents" then
    .ok (.sentsNet (if edge_weighting = "default" then "cosine" else edge_weighting))
  else .error .valueError

/-- Claim C7: `key_terms` raises ValueError iff `algorithm` is not one of
sgrank / textrank / singlerank, and `as_semantic_network` raises ValueError
iff `nodes` is not one of terms / sents; for each valid name the call
delegates to the corresponding helper (with the default edge weighting
resolved) and does not raise. -/
theorem key_terms_network_valid_names (algorithm nodes edge_weighting : String)
    (n : Int) (window_width : Nat) :
    (isErrE (key_terms algorithm n)
      = !(algorithm == "sgrank" || algorithm == "textrank" || algorithm == "singlerank")) ∧
    (isErrE (as_semantic_network nodes edge_weighting window_width)
      = !(nodes == "terms" || nodes == "sents")) ∧
    key_terms "sgrank" n = .ok (.sgrank 1500 n) ∧
    key_terms "textrank" n = .ok (.textrank n) ∧
    key_terms "singlerank" n = .ok (.singlerank n) ∧
    as_semantic_network "terms" edge_weighting window_width
      = .ok (.termsNet (if edge_weighting = "default" then "cooc_freq" else edge_weighting)
          window_width) ∧
    as_semantic_network "sents" edge_weighting window_width
      = .ok (.sentsNet (if edge_weighting = "default" then "cosine" else edge_weighting)) := by
  refine ⟨?_, ?_, rfl, rfl, rfl, rfl, rfl⟩
  · by_cases h1 : algorithm = "sgrank"
    · simp [key_terms, isErrE, h1]
    · by_cases h2 : algorithm = "textrank"
      · simp [key_terms, isErrE, h1, h2]
      · by_cases h3 : algorithm = "singlerank"
        · simp [key_terms, isErrE, h1, h2, h3]
        · simp [key_terms, isErrE, h1, h2, h3]
  · by_cases h1 : nodes = "terms"
    · simp [as_semantic_network, isErrE, h1]
    · by_cases h2 : nodes = "sents"
      · simp [as_semantic_network, isErrE, h1, h2]
      · simp [as_semantic_network, isErrE, h1, h2]

/-!
### The `TextDoc` constructor

`TextDoc.__init__(text_or_sdoc, spacy_pipeline, lang, metadata)`.  The
external language detector `text_utils.detect_language` is a parameter.  For
a raw string the language is the given `lang` if truthy, else the detected
one, and a ValueError is raised iff a pipeline was supplied whose `lang`
differs.  For an already-parsed spaCy doc no comparison happens at all: the
language is simply taken from the supplied pipeline (or detected when no
pipeline is given).  Any other input type raises ValueError. -/

structure SpacyPipeline where
  lang : String
deriving DecidableEq

structure SpacyDocIn where
  text_with_ws : String
deriving DecidableEq

inductive TDInput where
  | txt : String → TDInput
  | sd : SpacyDocIn → TDInput
  | other : TDInput
deriving DecidableEq

structure TextDocLang where
  lang : String
deriving DecidableEq

/-- `self.lang = text_utils.detect_language(text) if not lang else lang`
(`not lang` is true for `None` and for the empty string). -/
def resolveLang (detect : String → String) (lang? : Option String) (text : String) :
    String :=
  match lang? with
  | none => detect text
  | some l => if l = "" then detect text else l

def textDocInit (detect : String → String) (input : TDInput)
    (pipeline : Option SpacyPipeline) (lang? : Option String) :
    Except PyErr TextDocLang :=
  match input with
  | .txt s =>
    let lv := resolveLang detect lang? s
    match pipeline with
    | none => .ok ⟨lv⟩
    | some p => if p.lang ≠ lv then .error .valueError else .ok ⟨lv⟩
  | .sd dcin =>
    match pipeline with
    | some p => .ok ⟨p.lang⟩
    | none => .ok ⟨detect dcin.text_with_ws⟩
  | .other => .error .valueError

/-- Claim C4 counterexample: a parsed doc whose detected language is "de" is
accepted without any ValueError by a pipeline whose language is "en" — the
constructor simply adopts the pipeline's language in the parsed-doc branch,
so the claimed mismatch check does not happen "for every input form". -/
theorem textDocInit_no_check_for_parsed_doc :
    textDocInit (fun _ => "de") (.sd ⟨"Bonjour le monde"⟩) (some ⟨"en"⟩) none
      = .ok ⟨"en"⟩ ∧
    (fun _ => "de") "Bonjour le monde" ≠ "en" :=
  ⟨rfl, by decide⟩

/-- Claim C4 (amended): the language-mismatch ValueError is raised exactly
when the input is a raw string AND a pipeline is supplied AND the pipeline's
lang differs from the given-or-detected doc language; a raw string without a
pipeline never raises it, and parsed-doc input never raises at all (the
constructor performs no comparison in that branch). -/
theorem textDocInit_mismatch_raises_only_for_text (detect : String → String)
    (lang? : Option String) :
    (∀ (s : String) (p : SpacyPipeline),
      isErrE (textDocInit detect (.txt s) (some p) lang?)
        = (p.lang != resolveLang detect lang? s)) ∧
    (∀ s : String, isErrE (textDocInit detect (.txt s) none lang?) = false) ∧
    (∀ (dcin : SpacyDocIn) (pipeline : Option SpacyPipeline),
      isErrE (textDocInit detect (.sd dcin) pipeline lang?) = false) := by
  refine ⟨?_, ?_, ?_⟩
  · intro s p
    by_cases h : p.lang = resolveLang detect lang? s
    · simp [textDocInit, isErrE, h]
    · simp [textDocInit, isErrE, h]
  · intro s
    simp [textDocInit, isErrE]
  · intro dcin pipeline
    cases pipeline <;> simp [textDocInit, isErrE]

/-!
### Model of `TextCorpus`

Python objects are mutable, so `TextDoc`s owned by corpora are modelled as
records on an explicit heap (`List TDocData`, the object id being the list
index); `copy.deepcopy` allocates a fresh heap slot.  A `CorpusState` holds
the heap together with the corpus fields: `docs` is the list of object ids in
corpus order, `lang` / `pipelineLang` are the corpus language and
`self.spacy_pipeline.lang` (the pipeline produced by `data.load_spacy(lang)`),
and `n_docs` / `n_sents` / `n_tokens` are the aggregate counters.  The
document attributes `corpus_index` and `corpus` may be absent (`none`, the
`hasattr` test); `corpus_index` is a Python `int`, hence `Int`.  Operations
that can raise return `Except (PyErr × CorpusState)`, the error carrying the
state at the moment of the raise (mutations performed before it persist).
-/

structure TDocData where
  lang : String
  nSents : Nat
  nTokens : Nat
  corpus_index : Option Int
  corpus : Option Nat
  metadata : String
deriving DecidableEq

def dummyDoc : TDocData := ⟨"", 0, 0, none, none, ""⟩

structure CorpusState where
  heap : List TDocData
  docs : List Nat
  lang : String
  pipelineLang : String
  selfId : Nat
  n_docs : Nat
  n_sents : Nat
  n_tokens : Nat
deriving DecidableEq

def heapGet (h : List TDocData) (i : Nat) : TDocData := h.getD i dummyDoc

def heapSet (h : List TDocData) (i : Nat) (d : TDocData) : List TDocData := h.set i d

/-- External collaborators used by corpus operations: language detection and
the (opaque) spaCy parse, of which only the sentence and token counts matter
to the corpus bookkeeping. -/
structure Env where
  detect : String → String
  parseSents : String → Nat
  parseTokens : String → Nat

/-- `TextCorpus.__init__`. -/
def initCorpus (lang pipelineLang : String) (selfId : Nat) : CorpusState :=
  { heap := [], docs := [], lang := lang, pipelineLang := pipelineLang,
    selfId := selfId, n_docs := 0, n_sents := 0, n_tokens := 0 }

/-- The corpus state an operation left behind, whether it returned or raised. -/
def stateOf : Except (PyErr × CorpusState) CorpusState → CorpusState
  | .ok s => s
  | .error (_, s) => s

def errKind {α : Type} : Except (PyErr × CorpusState) α → Option PyErr
  | .error (e, _) => some e
  | .ok _ => none

/-- `TextCorpus.add_text`: build a `TextDoc` from the raw text with the
corpus' own pipeline (raising ValueError when the given-or-detected language
differs from the pipeline's), then set `corpus_index = n_docs` and `corpus`,
append it, and bump the aggregate counters. -/
def add_text (env : Env) (s : CorpusState) (text : String) (lang? : Option String)
    (md : String) : Except (PyErr × CorpusState) CorpusState :=
  let lv := resolveLang env.detect lang? text
  if s.pipelineLang ≠ lv then .error (.valueError, s)
  else
    let d : TDocData :=
      { lang := lv, nSents := env.parseSents text, nTokens := env.parseTokens text,
        corpus_index := some (Int.ofNat s.n_docs), corpus := some s.selfId,
        metadata := md }
    .ok { s with
          heap := s.heap ++ [d], docs := s.docs ++ [s.heap.length],
          n_docs := s.n_docs + 1, n_sents := s.n_sents + d.nSents,
          n_tokens := s.n_tokens + d.nTokens }

/-- `TextCorpus.add_doc`: ValueError on language mismatch; if the doc already
has a `corpus_index` attribute it is deep-copied (fresh heap slot) and the
copy is the object that gets `corpus_index = n_docs`, `corpus = self` and is
appended; otherwise the argument object itself is mutated and appended. -/
def add_doc (s : CorpusState) (docId : Nat) : Except (PyErr × CorpusState) CorpusState :=
  let d := heapGet s.heap docId
  if d.lang ≠ s.lang then .error (.valueError, s)
  else
    let tid := if d.corpus_index.isSome then s.heap.length else docId
    let heap1 := if d.corpus_index.isSome then s.heap ++ [d] else s.heap
    let dd := heapGet heap1 tid
    let heap2 := heapSet heap1 tid
      { dd with corpus_index := some (Int.ofNat s.n_docs), corpus := some s.selfId }
    .ok { s with
          heap := heap2, docs := s.docs ++ [tid],
          n_docs := s.n_docs + 1, n_sents := s.n_sents + d.nSents,
          n_tokens := s.n_tokens + d.nTokens }

/-- The loop `for doc in self[index + 1:]: doc.corpus_index -= 1` — reading a
missing attribute raises AttributeError, carrying the heap mutated so far. -/
def decrLoop (h : List TDocData) : List Nat → Except (PyErr × List TDocData) (List TDocData)
  | [] => .ok h
  | i :: rest =>
    let d := heapGet h i
    match d.corpus_index with
    | none => .error (.attributeError, h)
    | some k => decrLoop (heapSet h i { d with corpus_index := some (k - 1) }) rest

/-- `TextCorpus.remove_doc(index)`: decrement `corpus_index` on every doc
after `index`, then execute `del self[index]`.  `TextCorpus` defines
`__getitem__` but no `__delitem__`, so the `del` statement always raises
`TypeError` ("object does not support item deletion"); the decrements
performed before it persist and the docs list is never shortened. -/
def remove_doc (s : CorpusState) (index : Nat) : Except (PyErr × CorpusState) CorpusState :=
  match decrLoop s.heap (s.docs.drop (index + 1)) with
  | .error (e, h1) => .error (e, { s with heap := h1 })
  | .ok h1 => .error (.typeError, { s with heap := h1 })

/-- `remove_indexes = [doc.corpus_index for doc in self.get_docs(match_condition,
limit=limit)]`: the matching docs in corpus order (truncated to `limit`),
their `corpus_index` attributes read (AttributeError if absent). -/
def collectIndexes (s : CorpusState) (cond : TDocData → Bool) (limit : Option Nat) :
    Except PyErr (List Int) :=
  let matched := s.docs.filter (fun i => cond (heapGet s.heap i))
  let matched := match limit with | none => matched | some l => matched.take l
  let opts := matched.map (fun i => (heapGet s.heap i).corpus_index)
  if opts.all Option.isSome then .ok (opts.filterMap id) else .error .attributeError

/-- `for i, doc in enumerate(self): doc.corpus_index = i`. -/
def renumber (h : List TDocData) (ids : List Nat) : List TDocData :=
  ((List.range ids.length).zip ids).foldl
    (fun acc p =>
      heapSet acc p.2 { heapGet acc p.2 with corpus_index := some (Int.ofNat p.1) })
    h

/-- `TextCorpus.remove_docs`: collect the matched docs' `corpus_index`es,
`del self[index]` for each (the first `del` raises TypeError, exactly as in
`remove_doc`, leaving the state untouched), then — only reached when nothing
matched — re-set every doc's `corpus_index` by enumeration. -/
def remove_docs (s : CorpusState) (cond : TDocData → Bool) (limit : Option Nat) :
    Except (PyErr × CorpusState) CorpusState :=
  match collectIndexes s cond limit with
  | .error e => .error (e, s)
  | .ok [] => .ok { s with heap := renumber s.heap s.docs }
  | .ok (_ :: _) => .error (.typeError, s)

/-- One step of the `from_texts` loop: instantiate
`TextDoc(spacy_doc, lang=lang, spacy_pipeline=..., metadata=md)` (parsed-doc
branch: its language is the pipeline's) as a fresh heap object and `add_doc`
it. -/
def allocAdd (env : Env) (acc : Except (PyErr × CorpusState) CorpusState)
    (p : String × String) : Except (PyErr × CorpusState) CorpusState :=
  match acc with
  | .error e => .error e
  | .ok s =>
    let d : TDocData :=
      { lang := s.pipelineLang, nSents := env.parseSents p.1,
        nTokens := env.parseTokens p.1, corpus_index := none, corpus := none,
        metadata := p.2 }
    add_doc { s with heap := s.heap ++ [d] } s.heap.length

/-- `TextCorpus.from_texts`: pipe all texts through the corpus pipeline (one
parsed doc per text, in order) and `add_doc` each; with metadata supplied the
docs and metadata entries are paired by `zip`, which stops at the shorter
iterable. -/
def from_texts (env : Env) (lang pipelineLang : String) (texts : List String)
    (metadata : Option (List String)) : Except (PyErr × CorpusState) CorpusState :=
  let s0 := initCorpus lang pipelineLang 0
  match metadata with
  | some md => (texts.zip md).foldl (allocAdd env) (.ok s0)
  | none => (texts.map (fun t => (t, ""))).foldl (allocAdd env) (.ok s0)

lemma heapGet_append_lt {h : List TDocData} (t : List TDocData) {i : Nat}
    (hi : i < h.length) : heapGet (h ++ t) i = heapGet h i := by
  unfold heapGet
  rw [List.getD_eq_getElem?_getD, List.getD_eq_getElem?_getD,
    List.getElem?_append_left hi]

lemma heapGet_append_self (h : List TDocData) (d : TDocData) :
    heapGet (h ++ [d]) h.length = d := by
  unfold heapGet
  rw [List.getD_eq_getElem?_getD, List.getElem?_append_right (le_refl _)]
  simp

lemma heapGet_set_ne (h : List TDocData) {i j : Nat} (d : TDocData) (hne : i ≠ j) :
    heapGet (heapSet h i d) j = heapGet h j := by
  unfold heapGet heapSet
  rw [List.getD_eq_getElem?_getD, List.getD_eq_getElem?_getD, List.getElem?_set_ne hne]

lemma heapSet_append_self (h : List TDocData) (d d' : TDocData) :
    heapSet (h ++ [d]) h.length d' = h ++ [d'] := by
  unfold heapSet
  induction h with
  | nil => rfl
  | cons a rest ih => simp [List.cons_append, ih]

/-- Claim C8: neither `remove_doc` nor `remove_docs` ever touches the
aggregate counters `n_docs`, `n_sents`, `n_tokens`: whatever state either
call leaves behind — whether it returns or raises — carries exactly the
aggregates it started with, so after a removal they still account for every
doc ever added. -/
theorem remove_preserves_aggregates (s : CorpusState) (index : Nat)
    (cond : TDocData → Bool) (limit : Option Nat) :
    (stateOf (remove_doc s index)).n_docs = s.n_docs ∧
    (stateOf (remove_doc s index)).n_sents = s.n_sents ∧
    (stateOf (remove_doc s index)).n_tokens = s.n_tokens ∧
    (stateOf (remove_docs s cond limit)).n_docs = s.n_docs ∧
    (stateOf (remove_docs s cond limit)).n_sents = s.n_sents ∧
    (stateOf (remove_docs s cond limit)).n_tokens = s.n_tokens := by
  have h1 : (stateOf (remove_doc s index)).n_docs = s.n_docs ∧
      (stateOf (remove_doc s index)).n_sents = s.n_sents ∧
      (stateOf (remove_doc s index)).n_tokens = s.n_tokens := by
    unfold remove_doc
    cases hd : decrLoop s.heap (s.docs.drop (index + 1)) with
    | error pe => exact ⟨rfl, rfl, rfl⟩
    | ok hp => exact ⟨rfl, rfl, rfl⟩
  have h2 : (stateOf (remove_docs s cond limit)).n_docs = s.n_docs ∧
      (stateOf (remove_docs s cond limit)).n_sents = s.n_sents ∧
      (stateOf (remove_docs s cond limit)).n_tokens = s.n_tokens := by
    unfold remove_docs
    cases hc : collectIndexes s cond limit with
    | error e => exact ⟨rfl, rfl, rfl⟩
    | ok idxs => cases idxs <;> exact ⟨rfl, rfl, rfl⟩
  exact ⟨h1.1, h1.2.1, h1.2.2, h2.1, h2.2.1, h2.2.2⟩

def c1env : Env := ⟨fun _ => "en", fun _ => 1, fun _ => 3⟩

/-- A corpus with two docs added through `add_text`. -/
def c1s2 : CorpusState :=
  stateOf (add_text c1env
    (stateOf (add_text c1env (initCorpus "en" "en" 0) "one" none "")) "two" none "")

/-- Claim C1 (code bug evidence): on a two-doc corpus, `remove_doc(0)` —
claimed to delete the doc at position 0 and renumber the survivor — instead
raises TypeError (`del self[index]` needs a `__delitem__`, which `TextCorpus`
never defines): afterwards both docs are still in the corpus and both now
carry `corpus_index = 0`, breaking the positional-index invariant.
`remove_docs` fails with the same TypeError on its first `del self[index]`. -/
theorem remove_doc_raises_type_error :
    errKind (remove_doc c1s2 0) = some PyErr.typeError ∧
    (stateOf (remove_doc c1s2 0)).docs = [0, 1] ∧
    (heapGet (stateOf (remove_doc c1s2 0)).heap 1).corpus_index = some 0 ∧
    (heapGet (stateOf (remove_doc c1s2 0)).heap 0).corpus_index = some 0 ∧
    errKind (remove_docs c1s2 (fun _ => true) none) = some PyErr.typeError ∧
    (stateOf (remove_docs c1s2 (fun _ => true) none)).docs = [0, 1] := by
  decide

/-- Claim C5: `add_doc` with a doc that already carries a `corpus_index`
(i.e. is owned by some corpus, the `hasattr` test) and matching language
succeeds and appends a deep copy: the stored object is the freshly allocated
heap slot `s.heap.length`, a different object than the argument, and the
argument's own record — its `corpus_index` and `corpus` attributes included —
is left exactly as it was. -/
theorem add_doc_deep_copies (s : CorpusState) (docId : Nat)
    (hlt : docId < s.heap.length)
    (hown : (heapGet s.heap docId).corpus_index.isSome = true)
    (hlang : (heapGet s.heap docId).lang = s.lang) :
    isOkE (add_doc s docId) = true ∧
    (stateOf (add_doc s docId)).docs = s.docs ++ [s.heap.length] ∧
    s.heap.length ≠ docId ∧
    heapGet (stateOf (add_doc s docId)).heap docId = heapGet s.heap docId := by
  have hne : s.heap.length ≠ docId := by omega
  unfold add_doc
  rw [if_neg (by simp [hlang])]
  simp only [hown, if_true]
  refine ⟨rfl, rfl, hne, ?_⟩
  simp only [stateOf]
  rw [heapGet_set_ne _ _ hne, heapGet_append_lt _ hlt]

def c5ws : CorpusState :=
  { heap := [⟨"en", 1, 2, some 0, some 7, ""⟩], docs := [0], lang := "en",
    pipelineLang := "en", selfId := 0, n_docs := 1, n_sents := 1, n_tokens := 2 }

theorem add_doc_deep_copies_witness :
    (0 < c5ws.heap.length ∧ (heapGet c5ws.heap 0).corpus_index.isSome = true ∧
      (heapGet c5ws.heap 0).lang = c5ws.lang) ∧
    (isOkE (add_doc c5ws 0) = true ∧
      (stateOf (add_doc c5ws 0)).docs = c5ws.docs ++ [c5ws.heap.length] ∧
      c5ws.heap.length ≠ 0 ∧
      heapGet (stateOf (add_doc c5ws 0)).heap 0 = heapGet c5ws.heap 0) :=
  ⟨⟨by decide, by decide, by decide⟩,
    add_doc_deep_copies c5ws 0 (by decide) (by decide) (by decide)⟩

/-- The metadata dicts stored on the corpus docs, in corpus order. -/
def docsMetadata (s : CorpusState) : List String :=
  s.docs.map (fun i => (heapGet s.heap i).metadata)

/-- The `TextDoc` record that one `from_texts` iteration ends up storing. -/
def stepDoc (env : Env) (s : CorpusState) (p : String × String) : TDocData :=
  { lang := s.pipelineLang, nSents := env.parseSents p.1,
    nTokens := env.parseTokens p.1, corpus_index := some (Int.ofNat s.n_docs),
    corpus := some s.selfId, metadata := p.2 }

/-- The corpus state after one successful `from_texts` iteration. -/
def stepCorpus (env : Env) (s : CorpusState) (p : String × String) : CorpusState :=
  { s with
    heap := s.heap ++ [stepDoc env s p],
    docs := s.docs ++ [s.heap.length],
    n_docs := s.n_docs + 1,
    n_sents := s.n_sents + env.parseSents p.1,
    n_tokens := s.n_tokens + env.parseTokens p.1 }

lemma allocAdd_step (env : Env) (s : CorpusState) (p : String × String)
    (hlang : s.lang = s.pipelineLang) :
    allocAdd env (.ok s) p = .ok (stepCorpus env s p) := by
  unfold allocAdd add_doc stepCorpus stepDoc
  simp only [heapGet_append_self]
  rw [if_neg (by simp [hlang])]
  simp only [Option.isSome_none, Bool.false_eq_true, if_false, heapSet_append_self,
    heapGet_append_self]

lemma allocAdd_fold (env : Env) (pairs : List (String × String)) :
    ∀ s : CorpusState, s.lang = s.pipelineLang →
      (∀ i ∈ s.docs, i < s.heap.length) →
      isOkE (pairs.foldl (allocAdd env) (.ok s)) = true ∧
      (stateOf (pairs.foldl (allocAdd env) (.ok s))).n_docs = s.n_docs + pairs.length ∧
      (stateOf (pairs.foldl (allocAdd env) (.ok s))).docs.length
        = s.docs.length + pairs.length ∧
      docsMetadata (stateOf (pairs.foldl (allocAdd env) (.ok s)))
        = docsMetadata s ++ pairs.map Prod.snd := by
  induction pairs with
  | nil =>
    intro s _ _
    exact ⟨rfl, rfl, rfl, by simp [stateOf]⟩
  | cons p rest ih =>
    intro s hlang hbound
    have hstep := allocAdd_step env s p hlang
    have hlang' : (stepCorpus env s p).lang = (stepCorpus env s p).pipelineLang := hlang
    have hbound' : ∀ i ∈ (stepCorpus env s p).docs, i < (stepCorpus env s p).heap.length := by
      intro i hi
      have hi' : i ∈ s.docs ++ [s.heap.length] := hi
      have hlen : (stepCorpus env s p).heap.length = s.heap.length + 1 := by
        simp [stepCorpus]
      rw [hlen]
      rcases List.mem_append.mp hi' with h | h
      · exact Nat.lt_succ_of_lt (hbound i h)
      · rw [List.mem_singleton.mp h]
        exact Nat.lt_succ_self _
    have hmeta : docsMetadata (stepCorpus env s p) = docsMetadata s ++ [p.2] := by
      show (s.docs ++ [s.heap.length]).map
          (fun i => (heapGet (s.heap ++ [stepDoc env s p]) i).metadata)
        = docsMetadata s ++ [p.2]
      rw [List.map_append]
      congr 1
      · apply List.map_congr_left
        intro i hi
        rw [heapGet_append_lt _ (hbound i hi)]
      · simp [heapGet_append_self, stepDoc]
    have hrest := ih (stepCorpus env s p) hlang' hbound'
    rw [List.foldl_cons, hstep]
    refine ⟨hrest.1, ?_, ?_, ?_⟩
    · rw [hrest.2.1]
      have h1 : (stepCorpus env s p).n_docs = s.n_docs + 1 := rfl
      rw [h1, List.length_cons]
      omega
    · rw [hrest.2.2.1]
      have h1 : (stepCorpus env s p).docs.length = s.docs.length + 1 := by
        simp [stepCorpus]
      rw [h1, List.length_cons]
      omega
    · rw [hrest.2.2.2, hmeta]
      simp

/-- Claim C9: `from_texts` with a metadata iterable pairs texts and metadata
positionally via `zip`: the corpus ends up with exactly
`min(len(texts), len(metadata))` docs, whose stored metadata are the zipped
second components, and the excess of either iterable is silently dropped.
The corpus' pipeline is `data.load_spacy(lang)`, whose language is `lang`
itself, so both language parameters of the embedding coincide. -/
theorem from_texts_zips_metadata (env : Env) (lang : String) (texts md : List String) :
    isOkE (from_texts env lang lang texts (some md)) = true ∧
    (stateOf (from_texts env lang lang texts (some md))).n_docs
      = min texts.length md.length ∧
    (stateOf (from_texts env lang lang texts (some md))).docs.length
      = min texts.length md.length ∧
    docsMetadata (stateOf (from_texts env lang lang texts (some md)))
      = (texts.zip md).map Prod.snd := by
  have h := allocAdd_fold env (texts.zip md) (initCorpus lang lang 0) rfl
    (by intro i hi; simp [initCorpus] at hi)
  unfold from_texts
  refine ⟨h.1, ?_, ?_, ?_⟩
  · rw [h.2.1]
    simp [initCorpus, List.length_zip]
  · rw [h.2.2.1]
    simp [initCorpus, List.length_zip]
  · rw [h.2.2.2]
    simp [docsMetadata, initCorpus]

end TextacySpec
